import Mathlib

/-!
Verification development for the MCIS-BCI core (graph model, Bron–Kerbosch
product-graph engine, KPT hypergraph matcher, dispatcher).

The C++ sources are shallowly embedded:
* machine `int` is modelled as `Int`, `double` weights as exact rationals `ℚ`;
* `std::optional<Error>` results become `Option Error` (with `none` = success);
* `std::expected<V, E>` becomes `Except E V`;
* `std::unordered_map<K, V>` becomes an association list `List (K × V)`
  in iteration order, `std::set<T>` a duplicate-free `List T` in iteration
  order (inserts are modelled as dedup-appends; no proved property depends
  on the iteration order of a set);
* `Node*` pointers are modelled as `Nat` addresses at the `Node` layer.
  Inside one well-formed `Graph`, node ids are unique, so graph-level code
  references nodes by id;
* wall-clock deadlines and the BFS worklist are modelled with explicit fuel:
  the C++ code returns early when the deadline passes, the model returns
  early when fuel runs out.
-/

namespace mcis

/-- `mcis::NodeError` from `include/mcis/errors.h`. -/
inductive NodeError where
  | EDGE_ALREADY_EXISTS
  | EDGE_DOES_NOT_EXIST
  | SELF_LOOP
deriving DecidableEq, Repr, Fintype

/-- `mcis::GraphError` from `include/mcis/errors.h` (lines 25-30): the enum
has exactly these four alternatives. -/
inductive GraphError where
  | NODE_ALREADY_EXISTS
  | NODE_DOES_NOT_EXIST
  | EDGE_ALREADY_EXISTS
  | EDGE_DOES_NOT_EXIST
deriving DecidableEq, Repr, Fintype

/-- `mcis::AlgorithmError` from `include/mcis/errors.h`. -/
inductive AlgorithmError where
  | EMPTY_GRAPH
  | INVALID_ALGORITHM
deriving DecidableEq, Repr, Fintype

end mcis

/-- First-match lookup in an association list (`container.count` /
`container[key]` read access on a map whose keys are unique). -/
def lookupA {α β : Type} [DecidableEq α] : List (α × β) → α → Option β
  | [], _ => none
  | p :: rest, k => if p.1 = k then some p.2 else lookupA rest k

/-- `map[key] = value` write access: overwrite the entry if the key is
present, otherwise append a fresh entry. -/
def assocSet {α β : Type} [DecidableEq α] (l : List (α × β)) (k : α) (v : β) :
    List (α × β) :=
  if (lookupA l k).isSome then l.map (fun p => if p.1 = k then (k, v) else p)
  else l ++ [(k, v)]

/-- `std::set::insert` on the set's iteration sequence (dedup append; the
real container keeps elements sorted, but no proved property depends on
the order). -/
def setInsert {α : Type} [DecidableEq α] (x : α) (l : List α) : List α :=
  if x ∈ l then l else l ++ [x]

theorem lookupA_map_overwrite {α β : Type} [DecidableEq α]
    (k : α) (v : β) :
    ∀ l : List (α × β),
      lookupA (l.map fun p => if p.1 = k then (k, v) else p) k
        = if (lookupA l k).isSome then some v else none := by
  intro l
  induction l with
  | nil => simp [lookupA]
  | cons p rest ih =>
      by_cases hp : p.1 = k
      · simp [lookupA, hp]
      · simp [lookupA, hp, ih]

theorem lookupA_append_single {α β : Type} [DecidableEq α]
    (k : α) (v : β) :
    ∀ l : List (α × β), lookupA l k = none →
      lookupA (l ++ [(k, v)]) k = some v := by
  intro l
  induction l with
  | nil => simp [lookupA]
  | cons p rest ih =>
      intro h
      by_cases hp : p.1 = k
      · simp [lookupA, hp] at h
      · simp only [lookupA, hp, if_false] at h
        simpa [lookupA, hp] using ih h

theorem lookupA_assocSet_self {α β : Type} [DecidableEq α]
    (l : List (α × β)) (k : α) (v : β) :
    lookupA (assocSet l k v) k = some v := by
  unfold assocSet
  by_cases h : (lookupA l k).isSome
  · simp [h, lookupA_map_overwrite k v l]
  · have hnone : lookupA l k = none := by
      cases hl : lookupA l k with
      | none => rfl
      | some w => rw [hl] at h; simp at h
    simp [h, lookupA_append_single k v l hnone]

/-- The `Node` class of `include/mcis/node.h` / `src/graph/node.cpp`.
`children` and `parents` are keyed by the `Nat` address standing in for the
C++ `Node*` key. -/
structure Node where
  id : String
  num_parents : Int
  num_children : Int
  children : List (Nat × Int)
  parents : List (Nat × Int)
  tag : String
deriving DecidableEq, Repr

/-- `Node::add_parent` (node.cpp lines 109-121).  The C++ member mutates the
receiver `n`; the parent pointer is consulted only for its address
(`parentAddr`, the map key) and its id (`parentId`, for the self-loop
check), so those two projections are the parameters. -/
def Node.add_parent (n : Node) (parentAddr : Nat) (parentId : String)
    (weight : Int) : Option mcis.NodeError × Node :=
  match lookupA n.parents parentAddr with
  | some w0 =>
      (if w0 = weight then none else some mcis.NodeError.EDGE_ALREADY_EXISTS, n)
  | none =>
      if n.id = parentId then (some mcis.NodeError.SELF_LOOP, n)
      else (none, { n with
                    parents := assocSet n.parents parentAddr weight,
                    num_parents := n.num_parents + 1 })

/-- `Node::add_edge` (node.cpp lines 84-97).  `sa`/`s` are the receiver's
address and state, `na`/`nbr` the neighbour's.  On the success path the C++
code mutates the receiver's `children`/`num_children` and then calls
`neighbor->add_parent(this, weight)`, discarding its result. -/
def Node.add_edge (sa : Nat) (s : Node) (na : Nat) (nbr : Node)
    (weight : Int) : Option mcis.NodeError × Node × Node :=
  match lookupA s.children na with
  | some w0 =>
      (if w0 = weight then none else some mcis.NodeError.EDGE_ALREADY_EXISTS,
       s, nbr)
  | none =>
      if s.id = nbr.id then (some mcis.NodeError.SELF_LOOP, s, nbr)
      else
        let s' := { s with
                    children := assocSet s.children na weight,
                    num_children := s.num_children + 1 }
        let nbr' := (Node.add_parent nbr sa s.id weight).2
        (none, s', nbr')

/-- `Node::change_edge_weight` (node.cpp lines 141-148).  The C++ body reads
the neighbour pointer only as a map key and never writes through it: only
the receiver's `children` entry is updated, so the neighbour's state is not
a parameter and cannot change. -/
def Node.change_edge_weight (s : Node) (na : Nat) (new_weight : Int) :
    Option mcis.NodeError × Node :=
  if lookupA s.children na = none then
    (some mcis.NodeError.EDGE_DOES_NOT_EXIST, s)
  else (none, { s with children := assocSet s.children na new_weight })

/-- The per-child view `(child id, weight)` of a `children` map, obtained by
dereferencing each `Node*` key through `d : Nat → String` (the heap's
address-to-id map). -/
def childrenByIds (d : Nat → String) (l : List (Nat × Int)) :
    List (String × Int) :=
  l.map (fun p => (d p.1, p.2))

/-- Rebuilds an association list by inserting every entry in order with
overwrite semantics (the `std::unordered_map` built inside
`Node::operator==`). -/
def overwriteFold (l : List (String × Int)) : List (String × Int) :=
  l.foldl (fun m q => assocSet m q.1 q.2) []

/-- `Node::operator==` (node.cpp lines 158-181): equal ids, equal cached
parent and child counters, equal child map sizes, and every child of `a`
found by id in `b`'s id-keyed child map with the same weight. -/
def Node.eqB (d : Nat → String) (a b : Node) : Bool :=
  if a.id = b.id ∧ a.num_parents = b.num_parents
      ∧ a.num_children = b.num_children then
    if a.children.length = b.children.length then
      a.children.all (fun p =>
        decide (lookupA (overwriteFold (childrenByIds d b.children)) (d p.1)
          = some p.2))
    else false
  else false

/-- C8: the `GraphError` sum has exactly the four alternatives of
`include/mcis/errors.h`, not the seven the specification lists: it has no
`SELF_LOOP_NOT_ALLOWED`, `INVALID_PARAMETERS` or
`BULK_OPERATION_PARTIAL_FAILURE` alternative, so its cardinality is not 7. -/
theorem graphError_card_ne_seven : ¬ (Fintype.card mcis.GraphError = 7) := by
  decide

/-- C8 (amended): `GraphError` is a closed sum of exactly four alternatives,
`NODE_ALREADY_EXISTS`, `NODE_DOES_NOT_EXIST`, `EDGE_ALREADY_EXISTS` and
`EDGE_DOES_NOT_EXIST`; every `GraphError` value is one of these. -/
theorem graphError_closed_four :
    Fintype.card mcis.GraphError = 4 ∧
      ∀ e : mcis.GraphError,
        e = mcis.GraphError.NODE_ALREADY_EXISTS
        ∨ e = mcis.GraphError.NODE_DOES_NOT_EXIST
        ∨ e = mcis.GraphError.EDGE_ALREADY_EXISTS
        ∨ e = mcis.GraphError.EDGE_DOES_NOT_EXIST := by
  refine ⟨by decide, ?_⟩
  intro e
  cases e <;> simp

/-- A node `a` at address 1 with the single child entry for address 2 at
weight 5 (the reachable state after `a.add_edge(&b, 5)`). -/
def nodeA : Node := ⟨"a", 0, 1, [(2, 5)], [], ""⟩

/-- The matching neighbour `b` at address 2, whose `parents` mirror carries
weight 5 for address 1. -/
def nodeB : Node := ⟨"b", 1, 0, [], [(1, 5)], ""⟩

/-- C1 (code bug, evaluated at the failing input): starting from the
mirror-consistent pair `nodeA`/`nodeB` joined by an edge of weight 5,
`nodeA.change_edge_weight(&nodeB, 7)` succeeds and rewrites the caller's
`children` entry to 7, but the operation never writes through the
neighbour pointer, so `nodeB.parents` still carries weight 5 ≠ 7: the
parent/child mirror invariant is broken instead of both mirrors being
overwritten. -/
theorem change_edge_weight_breaks_mirror :
    (Node.change_edge_weight nodeA 2 7).1 = none
    ∧ (Node.change_edge_weight nodeA 2 7).2.children = [(2, 7)]
    ∧ lookupA nodeB.parents 1 = some 5
    ∧ (5 : Int) ≠ 7 := by
  refine ⟨rfl, rfl, rfl, by decide⟩

/-- C6: `Node::add_edge` contract, for a well-formed receiver (`hself`: the
no-self-loop invariant, the receiver is not its own child) and a
mirror-consistent pair (`hmirror`: if the forward edge is absent, so is the
backward mirror).  (1) calling it with the node itself fails with
`SELF_LOOP` and changes nothing; (2) an existing edge with a different
weight fails with `EDGE_ALREADY_EXISTS`; (3) an existing edge with the same
weight succeeds and changes nothing; (4) a new insertion succeeds, writes
both mirror entries with the requested weight and increments both cached
counters. -/
theorem node_add_edge_spec (sa na : Nat) (s nbr : Node) (w : Int)
    (hself : lookupA s.children sa = none)
    (hmirror : lookupA s.children na = none → lookupA nbr.parents sa = none) :
    (na = sa → Node.add_edge sa s na s w = (some mcis.NodeError.SELF_LOOP, s, s))
    ∧ (∀ w0, lookupA s.children na = some w0 → w0 ≠ w →
        Node.add_edge sa s na nbr w
          = (some mcis.NodeError.EDGE_ALREADY_EXISTS, s, nbr))
    ∧ (∀ w0, lookupA s.children na = some w0 → w0 = w →
        Node.add_edge sa s na nbr w = (none, s, nbr))
    ∧ (lookupA s.children na = none → s.id ≠ nbr.id →
        ∃ s' nbr', Node.add_edge sa s na nbr w = (none, s', nbr')
          ∧ lookupA s'.children na = some w
          ∧ s'.num_children = s.num_children + 1
          ∧ lookupA nbr'.parents sa = some w
          ∧ nbr'.num_parents = nbr.num_parents + 1) := by
  refine ⟨?_, ?_, ?_, ?_⟩
  · intro hna
    subst hna
    simp only [Node.add_edge, hself]
    simp
  · intro w0 hw0 hne
    simp only [Node.add_edge, hw0]
    simp [hne]
  · intro w0 hw0 heq
    subst heq
    simp only [Node.add_edge, hw0]
    simp
  · intro habs hid
    have hpar : lookupA nbr.parents sa = none := hmirror habs
    have hnid : nbr.id ≠ s.id := fun h => hid h.symm
    have hrun : Node.add_edge sa s na nbr w
        = (none,
           { s with children := assocSet s.children na w, num_children := s.num_children + 1 },
           { nbr with parents := assocSet nbr.parents sa w, num_parents := nbr.num_parents + 1 }) := by
      simp only [Node.add_edge, habs]
      simp [hid, Node.add_parent, hpar, hnid]
    exact ⟨_, _, hrun, by simp [lookupA_assocSet_self], rfl,
           by simp [lookupA_assocSet_self], rfl⟩

/-- A fresh two-field node `a` with no edges, used to instantiate the
`add_edge` contract. -/
def nodeS : Node := ⟨"a", 0, 0, [], [], ""⟩

/-- A fresh node `b` with no edges. -/
def nodeT : Node := ⟨"b", 0, 0, [], [], ""⟩

/-- Witness for C6: the `add_edge` contract instantiated at the concrete
fresh pair `nodeS` (address 1) and `nodeT` (address 2) with weight 3. -/
theorem node_add_edge_spec_witness :
    ((2 : Nat) = 1 →
        Node.add_edge 1 nodeS 2 nodeS 3 = (some mcis.NodeError.SELF_LOOP, nodeS, nodeS))
    ∧ (∀ w0, lookupA nodeS.children 2 = some w0 → w0 ≠ 3 →
        Node.add_edge 1 nodeS 2 nodeT 3
          = (some mcis.NodeError.EDGE_ALREADY_EXISTS, nodeS, nodeT))
    ∧ (∀ w0, lookupA nodeS.children 2 = some w0 → w0 = 3 →
        Node.add_edge 1 nodeS 2 nodeT 3 = (none, nodeS, nodeT))
    ∧ (lookupA nodeS.children 2 = none → nodeS.id ≠ nodeT.id →
        ∃ s' nbr', Node.add_edge 1 nodeS 2 nodeT 3 = (none, s', nbr')
          ∧ lookupA s'.children 2 = some 3
          ∧ s'.num_children = nodeS.num_children + 1
          ∧ lookupA nbr'.parents 1 = some 3
          ∧ nbr'.num_parents = nodeT.num_parents + 1) :=
  node_add_edge_spec 1 2 nodeS nodeT 3 rfl (fun _ => rfl)

theorem lookupA_append {α β : Type} [DecidableEq α]
    (l₁ l₂ : List (α × β)) (k : α) :
    lookupA (l₁ ++ l₂) k
      = match lookupA l₁ k with
        | some v => some v
        | none => lookupA l₂ k := by
  induction l₁ with
  | nil => simp [lookupA]
  | cons p rest ih =>
      by_cases hp : p.1 = k
      · simp [lookupA, hp]
      · simpa [lookupA, hp] using ih

theorem assocSet_of_lookup_none {α β : Type} [DecidableEq α]
    {l : List (α × β)} {k : α} (v : β) (h : lookupA l k = none) :
    assocSet l k v = l ++ [(k, v)] := by
  simp [assocSet, h]

theorem lookupA_eq_some_of_mem {α β : Type} [DecidableEq α]
    {l : List (α × β)} (hnd : (l.map Prod.fst).Nodup)
    {k : α} {v : β} (hm : (k, v) ∈ l) : lookupA l k = some v := by
  induction l with
  | nil => cases hm
  | cons p rest ih =>
      simp only [List.map_cons, List.nodup_cons] at hnd
      rcases List.mem_cons.1 hm with h | h
      · subst h; simp [lookupA]
      · have hk : p.1 ≠ k := by
          intro hkk
          exact hnd.1 (hkk ▸ (List.mem_map.2 ⟨(k, v), h, rfl⟩))
        simpa [lookupA, hk] using ih hnd.2 h

theorem mem_of_lookupA_eq_some {α β : Type} [DecidableEq α]
    {l : List (α × β)} {k : α} {v : β} (h : lookupA l k = some v) :
    (k, v) ∈ l := by
  induction l with
  | nil => simp [lookupA] at h
  | cons p rest ih =>
      simp only [lookupA] at h
      split at h
      · rename_i hp
        rw [Option.some_inj] at h
        subst h
        subst hp
        simp
      · rename_i hp
        exact List.mem_cons_of_mem _ (ih h)

theorem overwriteFold_go (l acc : List (String × Int))
    (hacc : ∀ p ∈ l, lookupA acc p.1 = none)
    (hnd : (l.map Prod.fst).Nodup) :
    l.foldl (fun m q => assocSet m q.1 q.2) acc = acc ++ l := by
  induction l generalizing acc with
  | nil => simp
  | cons q rest ih =>
      simp only [List.map_cons, List.nodup_cons] at hnd
      have h1 : lookupA acc q.1 = none := hacc q (List.mem_cons_self q rest)
      simp only [List.foldl_cons, assocSet_of_lookup_none q.2 h1]
      rw [ih (acc ++ [q])]
      · simp
      · intro p hp
        rw [lookupA_append]
        have h2 : lookupA acc p.1 = none := hacc p (List.mem_cons_of_mem _ hp)
        have h3 : q.1 ≠ p.1 := by
          intro hq
          exact hnd.1 (hq ▸ List.mem_map.2 ⟨p, hp, rfl⟩)
        simp [h2, lookupA, h3]
      · exact hnd.2

theorem overwriteFold_of_nodupKeys {l : List (String × Int)}
    (hnd : (l.map Prod.fst).Nodup) : overwriteFold l = l := by
  simpa using overwriteFold_go l [] (fun p _ => rfl) hnd

/-- The dereference map used in concrete `Node::operator==` computations
(irrelevant here: the nodes compared have no children). -/
def derefNull : Nat → String := fun _ => ""

/-- A node with id `A` and no parents. -/
def nodeP : Node := ⟨"A", 0, 0, [], [], ""⟩

/-- A node with the same id `A` and the same (empty) child map, but one
recorded parent. -/
def nodeQ : Node := ⟨"A", 1, 0, [], [(7, 0)], ""⟩

/-- C9 counterexample: `nodeP` and `nodeQ` have the same id and identical
(empty) child-sets by neighbour ids and weights, yet `Node::operator==`
returns false, because it also compares the cached `num_parents` counter:
the claimed "no other attribute influences equality" fails. -/
theorem node_eq_not_only_id_children :
    Node.eqB derefNull nodeP nodeQ = false
    ∧ nodeP.id = nodeQ.id
    ∧ childrenByIds derefNull nodeP.children
        = childrenByIds derefNull nodeQ.children := by
  refine ⟨by decide, rfl, rfl⟩

/-- C9 (amended): for nodes whose dereferenced child maps have no duplicate
ids, `Node::operator==` returns true iff the two nodes have the same id,
the same cached `num_parents` and `num_children` counters, and the same
child-set when children are compared by neighbour ids and weights (stated
as a permutation of the id-keyed child association lists). -/
theorem node_eq_iff (d : Nat → String) (a b : Node)
    (ha : ((childrenByIds d a.children).map Prod.fst).Nodup)
    (hb : ((childrenByIds d b.children).map Prod.fst).Nodup) :
    Node.eqB d a b = true ↔
      a.id = b.id ∧ a.num_parents = b.num_parents
        ∧ a.num_children = b.num_children
        ∧ List.Perm (childrenByIds d a.children) (childrenByIds d b.children) := by
  unfold Node.eqB
  by_cases h1 : a.id = b.id ∧ a.num_parents = b.num_parents
      ∧ a.num_children = b.num_children
  · rw [if_pos h1]
    by_cases h2 : a.children.length = b.children.length
    · rw [if_pos h2, overwriteFold_of_nodupKeys hb]
      have hiff : a.children.all (fun p =>
          decide (lookupA (childrenByIds d b.children) (d p.1) = some p.2)) = true
          ↔ ∀ q ∈ childrenByIds d a.children,
              lookupA (childrenByIds d b.children) q.1 = some q.2 := by
        rw [List.all_eq_true]
        constructor
        · intro hall q hq
          rcases List.mem_map.1 hq with ⟨p, hp, rfl⟩
          exact of_decide_eq_true (hall p hp)
        · intro hall p hp
          exact decide_eq_true (hall (d p.1, p.2) (List.mem_map.2 ⟨p, hp, rfl⟩))
      rw [hiff]
      constructor
      · intro hall
        have hsub : childrenByIds d a.children ⊆ childrenByIds d b.children := by
          intro q hq
          rcases q with ⟨qk, qv⟩
          exact mem_of_lookupA_eq_some (hall (qk, qv) hq)
        have hlen : (childrenByIds d b.children).length
            ≤ (childrenByIds d a.children).length := by
          simp [childrenByIds, h2]
        exact ⟨h1.1, h1.2.1, h1.2.2,
          List.Subperm.perm_of_length_le
            (List.subperm_of_subset (List.Nodup.of_map _ ha) hsub) hlen⟩
      · rintro ⟨-, -, -, hperm⟩
        intro q hq
        exact lookupA_eq_some_of_mem hb (hperm.mem_iff.1 hq)
    · rw [if_neg h2]
      simp only [Bool.false_eq_true, false_iff]
      rintro ⟨-, -, -, hperm⟩
      have := hperm.length_eq
      simp only [childrenByIds, List.length_map] at this
      exact h2 this
  · rw [if_neg h1]
    simp only [Bool.false_eq_true, false_iff]
    rintro ⟨ha1, ha2, ha3, -⟩
    exact h1 ⟨ha1, ha2, ha3⟩

/-- Witness for C9 (amended): the equality criterion instantiated at the
concrete pair `nodeP`, `nodeP` (duplicate-free child maps hold trivially). -/
theorem node_eq_iff_witness :
    Node.eqB derefNull nodeP nodeP = true ↔
      nodeP.id = nodeP.id ∧ nodeP.num_parents = nodeP.num_parents
        ∧ nodeP.num_children = nodeP.num_children
        ∧ List.Perm (childrenByIds derefNull nodeP.children)
            (childrenByIds derefNull nodeP.children) :=
  node_eq_iff derefNull nodeP nodeP (by decide) (by decide)

/-- A node as owned by a `Graph`.  Inside one well-formed graph node ids
are unique, so the `Node*` keys of the `children`/`parents` maps are
rendered as the ids of the referenced nodes. -/
structure GNode where
  id : String
  tag : String
  num_parents : Int
  num_children : Int
  children : List (String × Int)
  parents : List (String × Int)
deriving DecidableEq, Repr

/-- The `Graph` class of `include/mcis/graph.h`: the node container in its
iteration order.  The mutable `dag_cache` / `version` / `is_weighted`
fields play no role in any operation modelled here and are omitted. -/
structure Graph where
  nodes : List GNode
deriving DecidableEq, Repr

/-- `Node::contains_edge(v)` seen inside one graph: the `Node*` key is the
referenced node's id (node.cpp lines 150-152). -/
def GNode.contains_edge (n : GNode) (toId : String) : Bool :=
  (lookupA n.children toId).isSome

/-- Modelled from the spec: `Graph::get_node(id)` (graph.cpp is not among
the sources; behaviour fixed by the graph.h doc) — the node if found,
else null. -/
def Graph.get_node (g : Graph) (id : String) : Option GNode :=
  g.nodes.find? (fun n => n.id == id)

/-- Modelled from the spec: `Graph::get_num_nodes()` — the number of owned
nodes. -/
def Graph.get_num_nodes (g : Graph) : Nat := g.nodes.length

/-- Modelled from the spec: `Graph::add_node(id)` — fails with
`NODE_ALREADY_EXISTS` on a duplicate id, otherwise inserts a fresh
untagged node with empty edge maps. -/
def Graph.add_node (g : Graph) (id : String) : Option mcis.GraphError × Graph :=
  if (g.get_node id).isSome then (some mcis.GraphError.NODE_ALREADY_EXISTS, g)
  else (none, ⟨g.nodes ++ [⟨id, "", 0, 0, [], []⟩]⟩)

/-- Applies `f` to the graph's node with the given id. -/
def Graph.updateNode (g : Graph) (id : String) (f : GNode → GNode) : Graph :=
  ⟨g.nodes.map (fun n => if n.id = id then f n else n)⟩

/-- Modelled from the spec: `Graph::add_edge(from, to, w)` — a missing
endpoint fails with `NODE_DOES_NOT_EXIST`, a duplicate edge with
`EDGE_ALREADY_EXISTS`; a self-loop is rejected (the spec names
`SELF_LOOP_NOT_ALLOWED`, which the enum lacks, see C8, so the model reuses
`EDGE_ALREADY_EXISTS`; no proved property depends on the self-loop error
value, only on the graph being unchanged).  On success both mirror maps
and both counters are updated. -/
def Graph.add_edge (g : Graph) (from_id to_id : String) (w : Int) :
    Option mcis.GraphError × Graph :=
  match g.get_node from_id, g.get_node to_id with
  | none, _ => (some mcis.GraphError.NODE_DOES_NOT_EXIST, g)
  | some _, none => (some mcis.GraphError.NODE_DOES_NOT_EXIST, g)
  | some nf, some _ =>
      if from_id = to_id then (some mcis.GraphError.EDGE_ALREADY_EXISTS, g)
      else if (lookupA nf.children to_id).isSome then
        (some mcis.GraphError.EDGE_ALREADY_EXISTS, g)
      else
        (none,
         (g.updateNode from_id (fun n =>
             { n with children := n.children ++ [(to_id, w)],
                      num_children := n.num_children + 1 })).updateNode to_id
           (fun n =>
             { n with parents := n.parents ++ [(from_id, w)],
                      num_parents := n.num_parents + 1 }))

/-- Modelled from the spec: `Graph::get_subgraph_with_tag(tag)` — exactly
the nodes whose tag equals `tag`, with the induced edge set and the
counters recomputed accordingly. -/
def Graph.get_subgraph_with_tag (g : Graph) (t : String) : Graph :=
  let kept := (g.nodes.filter (fun n => n.tag == t)).map (fun n => n.id)
  ⟨(g.nodes.filter (fun n => n.tag == t)).map (fun n =>
    let ch := n.children.filter (fun p => kept.contains p.1)
    let pa := n.parents.filter (fun p => kept.contains p.1)
    { n with children := ch, parents := pa,
             num_children := (ch.length : Int),
             num_parents := (pa.length : Int) })⟩

namespace BronKerboschSerial

/-- `BronKerboschSerial::ProductNode`: the ordered tuple of component node
ids (`node_ids`). -/
abbrev ProductNode := List String

/-- `BronKerboschSerial::ProductGraph`: the product-node set (as the
iteration sequence of the `std::set`) plus the adjacency map. -/
structure ProductGraph where
  nodes : List ProductNode
  adjacency : List (ProductNode × List ProductNode)
deriving DecidableEq, Repr

/-- The loop of `are_product_nodes_adjacent` (bron_kerbosch_serial.cpp
lines 102-125), walking the graph list and the two id tuples in lockstep.
`isFirst` marks index 0, which only records its bit; `first` is the
`first_edge_in_g` accumulator.  The arm for tuples shorter than the graph
list is unreachable for real product nodes (the C++ indexing would be out
of bounds there) and yields false. -/
def adjacentAux : List Graph → List String → List String → Bool → Bool → Bool
  | [], _, _, _, _ => true
  | g :: gs, p :: ps, q :: qs, isFirst, first =>
      match g.get_node p, g.get_node q with
      | some u, some v =>
          let e := u.contains_edge q || v.contains_edge p
          if isFirst then adjacentAux gs ps qs false e
          else if e != first then false
          else adjacentAux gs ps qs false first
      | _, _ => false
  | _ :: _, _, _, _, _ => false

/-- `BronKerboschSerial::are_product_nodes_adjacent(p1, p2, graphs)`. -/
def are_product_nodes_adjacent (p1 p2 : ProductNode)
    (graphs : List Graph) : Bool :=
  adjacentAux graphs p1 p2 true false

/-- The per-coordinate undirected edge-existence bit `e_i` used by
`are_product_nodes_adjacent`: false when a component node is missing. -/
def coordBit (g : Graph) (a b : String) : Bool :=
  match g.get_node a, g.get_node b with
  | some u, some v => u.contains_edge b || v.contains_edge a
  | _, _ => false

/-- Both component nodes of one coordinate exist in that coordinate's
graph. -/
def coordPresent (g : Graph) (a b : String) : Prop :=
  (g.get_node a).isSome ∧ (g.get_node b).isSome

theorem adjacentAux_false_iff (f : Bool) :
    ∀ (gs : List Graph) (ps qs : List String),
      ps.length = gs.length → qs.length = gs.length →
      (adjacentAux gs ps qs false f = true ↔
        ∀ t ∈ gs.zip (ps.zip qs),
          coordPresent t.1 t.2.1 t.2.2 ∧ coordBit t.1 t.2.1 t.2.2 = f) := by
  intro gs
  induction gs with
  | nil =>
      intro ps qs hp hq
      simp [adjacentAux]
  | cons g gs ih =>
      intro ps qs hp hq
      cases ps with
      | nil => simp at hp
      | cons p ps' =>
          cases qs with
          | nil => simp at hq
          | cons q qs' =>
              simp only [List.length_cons, Nat.succ.injEq] at hp hq
              cases hu : g.get_node p with
              | none =>
                  simp only [adjacentAux, hu]
                  constructor
                  · intro h; cases h
                  · intro h
                    have := (h (g, p, q) (by simp)).1
                    rw [coordPresent, hu] at this
                    simp at this
              | some u =>
                  cases hv : g.get_node q with
                  | none =>
                      simp only [adjacentAux, hu, hv]
                      constructor
                      · intro h; cases h
                      · intro h
                        have := (h (g, p, q) (by simp)).1
                        rw [coordPresent, hv] at this
                        simp at this
                  | some v =>
                      simp only [adjacentAux, hu, hv]
                      by_cases he : (u.contains_edge q || v.contains_edge p) = f
                      · simp only [he, bne_self_eq_false, if_neg, Bool.false_eq_true,
                          not_false_eq_true, if_false]
                        rw [ih ps' qs' hp hq]
                        constructor
                        · intro h
                          intro t ht
                          rcases List.mem_cons.1 ht with rfl | ht'
                          · refine ⟨⟨by simp [hu], by simp [hv]⟩, ?_⟩
                            simp [coordBit, hu, hv, he]
                          · exact h t ht'
                        · intro h t ht
                          exact h t (List.mem_cons_of_mem _ ht)
                      · have hbne : ((u.contains_edge q || v.contains_edge p) != f) = true := by
                          simp [bne, he]
                        simp only [hbne, if_true]
                        constructor
                        · intro h; cases h
                        · intro h
                          have := (h (g, p, q) (by simp)).2
                          rw [coordBit, hu, hv] at this
                          exact absurd this he

/-- C5: for product tuples whose length matches the graph list,
`are_product_nodes_adjacent(p1, p2, graphs)` returns true iff every
component pair exists in its graph and the per-coordinate undirected
edge-existence bits agree across all coordinates (all equal to one common
Boolean `c`); in particular it returns false whenever some `p1[i]` or
`p2[i]` is missing from its graph. -/
theorem are_product_nodes_adjacent_iff (graphs : List Graph)
    (p1 p2 : ProductNode)
    (hp : p1.length = graphs.length) (hq : p2.length = graphs.length) :
    are_product_nodes_adjacent p1 p2 graphs = true ↔
      ∃ c : Bool, ∀ t ∈ graphs.zip (p1.zip p2),
        coordPresent t.1 t.2.1 t.2.2 ∧ coordBit t.1 t.2.1 t.2.2 = c := by
  cases graphs with
  | nil =>
      simp [are_product_nodes_adjacent, adjacentAux]
  | cons g gs =>
      cases p1 with
      | nil => simp at hp
      | cons p ps' =>
          cases p2 with
          | nil => simp at hq
          | cons q qs' =>
              simp only [List.length_cons, Nat.succ.injEq] at hp hq
              rw [are_product_nodes_adjacent]
              cases hu : g.get_node p with
              | none =>
                  simp only [adjacentAux, hu]
                  constructor
                  · intro h; cases h
                  · rintro ⟨c, h⟩
                    have := (h (g, p, q) (by simp)).1
                    rw [coordPresent, hu] at this
                    simp at this
              | some u =>
                  cases hv : g.get_node q with
                  | none =>
                      simp only [adjacentAux, hu, hv]
                      constructor
                      · intro h; cases h
                      · rintro ⟨c, h⟩
                        have := (h (g, p, q) (by simp)).1
                        rw [coordPresent, hv] at this
                        simp at this
                  | some v =>
                      simp only [adjacentAux, hu, hv, if_true]
                      rw [adjacentAux_false_iff _ gs ps' qs' hp hq]
                      constructor
                      · intro h
                        refine ⟨u.contains_edge q || v.contains_edge p, ?_⟩
                        intro t ht
                        rcases List.mem_cons.1 ht with rfl | ht'
                        · refine ⟨⟨by simp [hu], by simp [hv]⟩, ?_⟩
                          simp [coordBit, hu, hv]
                        · exact h t ht'
                      · rintro ⟨c, h⟩
                        have hhead := (h (g, p, q) (by simp)).2
                        simp only [coordBit, hu, hv] at hhead
                        intro t ht
                        rw [hhead]
                        exact h t (List.mem_cons_of_mem _ ht)

/-- The two-node graph `A -> B` (edge weight 1). -/
def gEdgeAB : Graph :=
  ⟨[⟨"A", "", 0, 1, [("B", 1)], []⟩, ⟨"B", "", 1, 0, [], [("A", 1)]⟩]⟩

/-- Witness for C5: the adjacency characterisation instantiated at the
concrete singleton tuples `(A)`, `(B)` over the single graph `A -> B`. -/
theorem are_product_nodes_adjacent_iff_witness :
    are_product_nodes_adjacent ["A"] ["B"] [gEdgeAB] = true ↔
      ∃ c : Bool, ∀ t ∈ [gEdgeAB].zip ((["A"] : List String).zip ["B"]),
        coordPresent t.1 t.2.1 t.2.2 ∧ coordBit t.1 t.2.1 t.2.2 = c :=
  are_product_nodes_adjacent_iff [gEdgeAB] ["A"] ["B"] rfl rfl

end BronKerboschSerial

/-- Stand-in for the implementation-defined `std::hash<std::string>` that
`find_simple_mcis` consults when sprinkling edges; no proved property
depends on its values. -/
def hashStr (s : String) : Nat :=
  s.data.foldl (fun h c => h * 31 + c.toNat) 7

/-- Inserts every element of `xs`, in order, into the set represented by
`acc` (`std::set` bulk insertion). -/
def setInsertList {α : Type} [DecidableEq α] (acc : List α) (xs : List α) :
    List α :=
  xs.foldl (fun l x => setInsert x l) acc

namespace BronKerboschSerial

/-- The tuple sequence generated by `generate_product_nodes`
(bron_kerbosch_serial.cpp lines 69-86): the Cartesian product of the
per-graph id sequences, outermost loop on the first graph. -/
def productTuples : List (List String) → List (List String)
  | [] => [[]]
  | ids :: rest =>
      let sub := productTuples rest
      ids.foldr (fun x acc => sub.map (fun t => x :: t) ++ acc) []

/-- `BronKerboschSerial::build_product_graph` (bron_kerbosch_serial.cpp
lines 53-100).  The node set is the generated tuple sequence inserted into
a set; the adjacency entry of `p` collects every `q` inserted for `p` by
the double loop, i.e. every `q` forming with `p` an unordered pair of
distinct nodes that the predicate accepts in either orientation. -/
def build_product_graph (graphs : List Graph) : ProductGraph :=
  if graphs.isEmpty then ⟨[], []⟩
  else
    let nodes := setInsertList []
      (productTuples (graphs.map (fun g => g.nodes.map (fun n => n.id))))
    let adjacency := nodes.map (fun p =>
      (p, nodes.filter (fun q =>
        (p != q && are_product_nodes_adjacent p q graphs)
        || (q != p && are_product_nodes_adjacent q p graphs))))
    ⟨nodes, adjacency⟩

/-- Adjacency lookup `product_graph.adjacency.find(v)`, defaulting to the
empty neighbour set when the key is absent. -/
def adjOf (pg : ProductGraph) (v : ProductNode) : List ProductNode :=
  (lookupA pg.adjacency v).getD []

/-- Degree used by `choose_pivot`: size of the adjacency entry, 0 when
absent. -/
def degreeOf (pg : ProductGraph) (n : ProductNode) : Nat :=
  match lookupA pg.adjacency n with
  | some l => l.length
  | none => 0

/-- One scanning loop of `choose_pivot` (bron_kerbosch_serial.cpp lines
217-255): state is `(best_pivot, max_degree, found_pivot)`. -/
def pivotScan (pg : ProductGraph) :
    List ProductNode → ProductNode × Nat × Bool → ProductNode × Nat × Bool
  | [], st => st
  | n :: rest, (best, maxDeg, found) =>
      if degreeOf pg n > maxDeg then pivotScan pg rest (n, degreeOf pg n, true)
      else pivotScan pg rest (best, maxDeg, found)

/-- `BronKerboschSerial::choose_pivot`: highest-degree node of `P` then `X`
(first encounter wins ties); if nothing had positive degree, the first
element of `P`, else of `X`, else the default-constructed node. -/
def choose_pivot (P X : List ProductNode) (pg : ProductGraph) : ProductNode :=
  let st1 := pivotScan pg P ([], 0, false)
  let st2 := pivotScan pg X st1
  if st2.2.2 then st2.1
  else
    match P with
    | p :: _ => p
    | [] =>
        match X with
        | x :: _ => x
        | [] => st2.1

/-- The `for (v : P \ N(pivot))` loop of
`bron_kerbosch_recursive_with_timeout` (bron_kerbosch_serial.cpp lines
189-214).  `step` is the recursive call one level deeper (already charged
one unit of fuel); the loop threads the shrinking `P`, the growing `X` and
the clique accumulator through its iterations. -/
def bkLoop (adj : ProductNode → List ProductNode)
    (step : List ProductNode → List ProductNode → List ProductNode →
      List (List ProductNode) → List (List ProductNode)) :
    List ProductNode → List ProductNode → List ProductNode →
      List ProductNode → List (List ProductNode) → List (List ProductNode)
  | [], _R, _P, _X, cliques => cliques
  | v :: vs, R, P, X, cliques =>
      let Rn := setInsert v R
      let vn := adj v
      let Pn := P.filter (fun u => vn.contains u)
      let Xn := X.filter (fun u => vn.contains u)
      let cliques' := step Rn Pn Xn cliques
      bkLoop adj step vs R (P.filter (fun u => u != v)) (setInsert v X) cliques'

/-- `BronKerboschSerial::bron_kerbosch_recursive_with_timeout`
(bron_kerbosch_serial.cpp lines 152-215).  The wall-clock deadline check is
abstracted by fuel: the C++ call returns immediately once the deadline has
passed, the model returns immediately once fuel is exhausted (for built
product graphs, depth `|P| + 1` suffices, so ample fuel models the
no-timeout run).  Then come the width bound (`cliques[0].size() > 10`),
the clique acceptance (`P` and `X` empty, record non-empty `R`), and the
pivoted loop. -/
def bkRec (pg : ProductGraph) (fuel : Nat) (R P X : List ProductNode)
    (cliques : List (List ProductNode)) : List (List ProductNode) :=
  match fuel with
  | 0 => cliques
  | fuel' + 1 =>
      if cliques ≠ [] ∧ (cliques.headD []).length > 10 then cliques
      else if P = [] ∧ X = [] then
        if R ≠ [] then cliques ++ [R] else cliques
      else
        let pivot := choose_pivot P X pg
        let pn := adjOf pg pivot
        let Pw := P.filter (fun v => !(pn.contains v))
        bkLoop (adjOf pg) (fun R' P' X' cl => bkRec pg fuel' R' P' X' cl)
          Pw R P X cliques

/-- `BronKerboschSerial::find_maximal_cliques_with_timeout`
(bron_kerbosch_serial.cpp lines 127-150): run the recursion from
`R = X = ∅`, `P =` all product nodes; if nothing was recorded and the
product graph has nodes, emit the one-node degenerate fallback clique
drawn from the first product node. -/
def find_maximal_cliques_with_timeout (pg : ProductGraph)
    (_timeout_ms : Nat) : List (List ProductNode) :=
  let cliques := bkRec pg (pg.nodes.length + 1) [] pg.nodes [] []
  if cliques.isEmpty then
    match pg.nodes with
    | [] => cliques
    | n :: _ => [[n]]
  else cliques

/-- The `_`-join of a product node's component ids (the canonical
product-node-name rule). -/
def joinIds (ids : List String) : String := String.intercalate "_" ids

/-- The directed edge `p1[i] -> p2[i]` exists in graph `i` for every
coordinate (the edge acceptance of `create_subgraph_from_clique`); false
as soon as a component node is missing. -/
def edgeInAllAux : List Graph → List String → List String → Bool
  | [], _, _ => true
  | g :: gs, a :: as', b :: bs =>
      match g.get_node a, g.get_node b with
      | some u, some _ => u.contains_edge b && edgeInAllAux gs as' bs
      | _, _ => false
  | _ :: _, _, _ => false

/-- `BronKerboschSerial::create_subgraph_from_clique`
(bron_kerbosch_serial.cpp lines 282-332): null for the empty clique;
otherwise a graph with one `_`-joined node per clique member and an edge
of weight 1 for every ordered pair whose directed edge exists in every
input graph. -/
def create_subgraph_from_clique (clique : List ProductNode)
    (graphs : List Graph) : Option Graph :=
  if clique.isEmpty then none
  else
    let withNodes := clique.foldl (fun g pn => (g.add_node (joinIds pn)).2) ⟨[]⟩
    let withEdges := clique.foldl (fun g pn1 =>
      clique.foldl (fun g pn2 =>
        if pn1 ≠ pn2 then
          if edgeInAllAux graphs pn1 pn2 then
            (g.add_edge (joinIds pn1) (joinIds pn2) 1).2
          else g
        else g) g) withNodes
    some withEdges

/-- `BronKerboschSerial::convert_cliques_to_subgraphs`
(bron_kerbosch_serial.cpp lines 257-280): keep the cliques of maximum
cardinality and convert each to a subgraph, skipping null results. -/
def convert_cliques_to_subgraphs (cliques : List (List ProductNode))
    (graphs : List Graph) : List Graph :=
  if cliques.isEmpty then []
  else
    let max_size := cliques.foldl (fun m c => max m c.length) 0
    cliques.filterMap (fun c =>
      if c.length = max_size then create_subgraph_from_clique c graphs
      else none)

/-- `BronKerboschSerial::are_nodes_structurally_compatible`
(bron_kerbosch_serial.cpp lines 334-349): every node's total degree within
`max(1, min(deg_first, deg)/2)` of the first node's (C++ `int` division
truncates toward zero, hence `Int.tdiv`). -/
def are_nodes_structurally_compatible (ns : List GNode) : Bool :=
  match ns with
  | [] => true
  | n0 :: rest =>
      let firstDeg := n0.num_children + n0.num_parents
      rest.all (fun n =>
        let deg := n.num_children + n.num_parents
        decide (|firstDeg - deg| ≤ max 1 (Int.tdiv (min firstDeg deg) 2)))

/-- The inner search of `find_simple_mcis`: the first node of `g`
structurally compatible with `node1` (`break` on first hit). -/
def findCompatible (node1 : GNode) (g : Graph) : Option GNode :=
  g.nodes.find? (fun node2 => are_nodes_structurally_compatible [node1, node2])

/-- The per-row id construction of `find_simple_mcis`: extend `acc` with a
compatible node id from each remaining graph, or fail. -/
def buildRowId (node1 : GNode) : List Graph → String → Option String
  | [], acc => some acc
  | g :: gs, acc =>
      match findCompatible node1 g with
      | some node2 => buildRowId node1 gs (acc ++ "_" ++ node2.id)
      | none => none

/-- The per-node body of the row loop of `find_simple_mcis`
(bron_kerbosch_serial.cpp lines 362-386): the C++ `break` once
`added_nodes` reaches `MAX_NODES = 10` is the guard that skips every later
iteration; otherwise a row id is built from a compatible node of each
remaining graph and added to the result. -/
def simpleStep (grest : List Graph) (st : Graph × Nat) (node1 : GNode) :
    Graph × Nat :=
  if st.2 ≥ 10 then st
  else
    match buildRowId node1 grest node1.id with
    | some rid => ((st.1.add_node rid).2, st.2 + 1)
    | none => st

/-- `BronKerboschSerial::find_simple_mcis` (bron_kerbosch_serial.cpp lines
351-407): the bounded heuristic used when the product graph exceeds the
1000-node gate.  At most 10 rows are formed from the first graph's nodes
via `simpleStep`; then edges are sprinkled between result ids whose
concatenation hashes to `0 mod 4`; the result is returned only when
non-empty. -/
def find_simple_mcis (graphs : List Graph) : List Graph :=
  match graphs with
  | [] => []
  | g0 :: grest =>
      let res := (g0.nodes.foldl (simpleStep grest) (⟨[]⟩, 0)).1
      let ids := res.nodes.map (fun n => n.id)
      let res2 := ids.foldl (fun r id1 =>
        ids.foldl (fun r id2 =>
          if id1 ≠ id2 ∧ r.get_num_nodes < 10 then
            if hashStr (id1 ++ id2) % 4 = 0 then (r.add_edge id1 id2 1).2
            else r
          else r) r) res
      if res2.get_num_nodes > 0 then [res2] else []

/-- `BronKerboschSerial::find` (bron_kerbosch_serial.cpp lines 24-51):
`EMPTY_GRAPH` if any input graph has zero nodes; the heuristic when the
product graph exceeds 1000 nodes; otherwise clique enumeration (5000 ms
deadline) followed by conversion.  The tag parameter is unused, as in the
C++ body. -/
def find (graphs : List Graph) (_tag : Option String) :
    Except mcis.AlgorithmError (List Graph) :=
  if graphs.any (fun g => g.get_num_nodes == 0) then
    Except.error mcis.AlgorithmError.EMPTY_GRAPH
  else
    let product_graph := build_product_graph graphs
    if product_graph.nodes.length > 1000 then
      Except.ok (find_simple_mcis graphs)
    else
      Except.ok (convert_cliques_to_subgraphs
        (find_maximal_cliques_with_timeout product_graph 5000) graphs)

/-- C10: called on the empty list of input graphs, `BronKerboschSerial::find`
returns success with the empty result vector rather than an `EMPTY_GRAPH`
error: the zero-node check is vacuous, the product graph is empty, no
fallback clique is emitted, and clique conversion yields no graphs. -/
theorem find_empty_input_ok : ∀ tag : Option String,
    find [] tag = Except.ok [] := fun _ => rfl

end BronKerboschSerial

namespace BronKerboschSerial

theorem foldr_sections_length (sub : List (List String)) :
    ∀ ids : List String,
      (ids.foldr (fun x acc => sub.map (fun t => x :: t) ++ acc) []).length
        = ids.length * sub.length := by
  intro ids
  induction ids with
  | nil => simp
  | cons x ids' ih => simp [ih, Nat.succ_mul, Nat.add_comm]

theorem productTuples_length (idss : List (List String)) :
    (productTuples idss).length = (idss.map List.length).prod := by
  induction idss with
  | nil => simp [productTuples]
  | cons ids rest ih =>
      simp only [productTuples, List.map_cons, List.prod_cons]
      rw [foldr_sections_length, ih]

theorem mem_foldr_sections {sub : List (List String)} :
    ∀ {ids : List String} {t : List String},
      (t ∈ ids.foldr (fun x acc => sub.map (fun s => x :: s) ++ acc) [] ↔
        ∃ x ∈ ids, ∃ s ∈ sub, t = x :: s) := by
  intro ids
  induction ids with
  | nil => simp
  | cons x ids' ih =>
      intro t
      simp only [List.foldr_cons, List.mem_append, List.mem_map, ih,
        List.mem_cons]
      constructor
      · rintro (⟨s, hs, rfl⟩ | ⟨y, hy, s, hs, rfl⟩)
        · exact ⟨x, Or.inl rfl, s, hs, rfl⟩
        · exact ⟨y, Or.inr hy, s, hs, rfl⟩
      · rintro ⟨y, hy | hy, s, hs, rfl⟩
        · exact Or.inl ⟨s, hs, by rw [hy]⟩
        · exact Or.inr ⟨y, hy, s, hs, rfl⟩

theorem foldr_sections_nodup (sub : List (List String)) (hsub : sub.Nodup) :
    ∀ ids : List String, ids.Nodup →
      (ids.foldr (fun x acc => sub.map (fun s => x :: s) ++ acc) []).Nodup := by
  intro ids
  induction ids with
  | nil => intro _; simp
  | cons x ids' ih =>
      intro hnd
      rw [List.nodup_cons] at hnd
      simp only [List.foldr_cons]
      rw [List.nodup_append]
      refine ⟨hsub.map (fun s₁ s₂ hh => by injection hh), ih hnd.2, ?_⟩
      intro t ht1 ht2
      rcases List.mem_map.1 ht1 with ⟨s, _, rfl⟩
      rcases mem_foldr_sections.1 ht2 with ⟨y, hy, s', _, heq⟩
      have hxy : x = y := (List.cons.injEq _ _ _ _ ▸ heq).1
      exact hnd.1 (hxy ▸ hy)

theorem productTuples_nodup :
    ∀ idss : List (List String), (∀ ids ∈ idss, ids.Nodup) →
      (productTuples idss).Nodup
  | [], _ => by simp [productTuples]
  | ids :: rest, h => by
      simp only [productTuples]
      exact foldr_sections_nodup _
        (productTuples_nodup rest (fun l hl => h l (List.mem_cons_of_mem _ hl)))
        ids (h ids (List.mem_cons_self _ _))

theorem setInsertList_eq_append {α : Type} [DecidableEq α] :
    ∀ (l acc : List α), l.Nodup → (∀ x ∈ l, x ∉ acc) →
      setInsertList acc l = acc ++ l := by
  intro l
  induction l with
  | nil => intro acc _ _; simp [setInsertList]
  | cons x rest ih =>
      intro acc hnd hdisj
      rw [List.nodup_cons] at hnd
      have hx : x ∉ acc := hdisj x (List.mem_cons_self _ _)
      have hstep : setInsertList acc (x :: rest)
          = setInsertList (acc ++ [x]) rest := by
        simp [setInsertList, setInsert, hx]
      rw [hstep, ih (acc ++ [x]) hnd.2 ?_]
      · simp
      · intro y hy
        simp only [List.mem_append, List.mem_singleton]
        rintro (hya | rfl)
        · exact hdisj y (List.mem_cons_of_mem _ hy) hya
        · exact hnd.1 hy

theorem length_setInsertList_ge {α : Type} [DecidableEq α] :
    ∀ (l acc : List α), acc.length ≤ (setInsertList acc l).length := by
  intro l
  induction l with
  | nil => intro acc; simp [setInsertList]
  | cons x rest ih =>
      intro acc
      have hstep : setInsertList acc (x :: rest)
          = setInsertList (setInsert x acc) rest := by
        simp [setInsertList]
      rw [hstep]
      refine le_trans ?_ (ih (setInsert x acc))
      by_cases hx : x ∈ acc <;> simp [setInsert, hx]

theorem setInsertList_nil_ne {α : Type} [DecidableEq α]
    (l : List α) (h : l ≠ []) : setInsertList [] l ≠ [] := by
  cases l with
  | nil => exact absurd rfl h
  | cons x rest =>
      have hstep : setInsertList ([] : List α) (x :: rest)
          = setInsertList [x] rest := by
        simp [setInsertList, setInsert]
      rw [hstep]
      intro hnil
      have hlen := length_setInsertList_ge rest [x]
      rw [hnil] at hlen
      simp at hlen

/-- An isolated, untagged node whose id is `k` letters `a`. -/
def isoNode (k : Nat) : GNode :=
  ⟨String.mk (List.replicate k 'a'), "", 0, 0, [], []⟩

/-- A graph of 334 isolated nodes with pairwise distinct ids. -/
def bigG : Graph := ⟨(List.range 334).map isoNode⟩

/-- The directed triangle `x -> y -> z -> x`; every node has total degree
2 (one parent, one child). -/
def triG : Graph :=
  ⟨[⟨"x", "", 1, 1, [("y", 0)], [("z", 0)]⟩,
    ⟨"y", "", 1, 1, [("z", 0)], [("x", 0)]⟩,
    ⟨"z", "", 1, 1, [("x", 0)], [("y", 0)]⟩]⟩

theorem isoNode_injective :
    Function.Injective (fun k => String.mk (List.replicate k 'a')) := by
  intro k1 k2 h
  have hdata := congrArg String.data h
  simpa using congrArg List.length hdata

theorem bigG_num_nodes : bigG.get_num_nodes = 334 := by
  simp [bigG, Graph.get_num_nodes]

theorem counter_pg_nodes_length :
    (build_product_graph [bigG, triG]).nodes.length = 1002 := by
  have h1 : (bigG.nodes.map (fun n => n.id)).Nodup := by
    have : bigG.nodes.map (fun n => n.id)
        = (List.range 334).map (fun k => String.mk (List.replicate k 'a')) := by
      simp only [bigG, List.map_map]
      rfl
    rw [this]
    exact (List.nodup_range 334).map isoNode_injective
  have h2 : (triG.nodes.map (fun n => n.id)).Nodup := by decide
  have hnodup :
      (productTuples ([bigG, triG].map
        (fun g => g.nodes.map (fun n => n.id)))).Nodup := by
    apply productTuples_nodup
    intro l hl
    simp only [List.map_cons, List.map_nil, List.mem_cons,
      List.not_mem_nil, or_false] at hl
    rcases hl with rfl | rfl
    · exact h1
    · exact h2
  have hset : (build_product_graph [bigG, triG]).nodes
      = productTuples ([bigG, triG].map (fun g => g.nodes.map (fun n => n.id))) := by
    simp only [build_product_graph, List.isEmpty_cons, Bool.false_eq_true,
      if_false]
    exact setInsertList_eq_append _ [] hnodup (by simp)
  rw [hset, productTuples_length]
  simp [bigG, triG]

theorem counter_find_simple : find_simple_mcis [bigG, triG] = [] := by
  have hrow : ∀ n ∈ bigG.nodes, buildRowId n [triG] n.id = none := by
    intro n hn
    obtain ⟨k, -, rfl⟩ := List.mem_map.1 hn
    rfl
  have hfold : ∀ (nodes : List GNode) (st : Graph × Nat),
      (∀ n ∈ nodes, buildRowId n [triG] n.id = none) →
      nodes.foldl (simpleStep [triG]) st = st := by
    intro nodes
    induction nodes with
    | nil => intro st _; rfl
    | cons n rest ih =>
        intro st h
        have hn := h n (List.mem_cons_self _ _)
        have hstep : simpleStep [triG] st n = st := by
          unfold simpleStep
          rw [hn]
          split <;> rfl
        rw [List.foldl_cons, hstep]
        exact ih st (fun m hm => h m (List.mem_cons_of_mem _ hm))
  simp only [find_simple_mcis, hfold bigG.nodes (⟨[]⟩, 0) hrow]
  rfl

/-- C3 counterexample: `bigG` (334 isolated nodes) and `triG` (a directed
triangle) form a non-empty input list in which every graph has at least
one node, and the product graph has 1002 > 1000 nodes, so `find` takes the
`find_simple_mcis` fallback; no `triG` node is structurally compatible
with an isolated node, so the fallback builds zero rows and `find` returns
success with an empty result vector — there is no result graph at all,
contradicting the claim. -/
theorem find_nonempty_inputs_empty_output :
    find [bigG, triG] none = Except.ok []
    ∧ bigG.get_num_nodes = 334 ∧ triG.get_num_nodes = 3 := by
  refine ⟨?_, bigG_num_nodes, rfl⟩
  have hany : ([bigG, triG].any (fun g => g.get_num_nodes == 0)) = false := by
    simp [bigG_num_nodes]
    decide
  have hgate : (build_product_graph [bigG, triG]).nodes.length > 1000 := by
    rw [counter_pg_nodes_length]; omega
  simp only [find, hany, Bool.false_eq_true, if_false, if_pos hgate,
    counter_find_simple]

end BronKerboschSerial

namespace BronKerboschSerial

theorem bkLoop_cliques (adj : ProductNode → List ProductNode)
    (step : List ProductNode → List ProductNode → List ProductNode →
      List (List ProductNode) → List (List ProductNode))
    (hstep : ∀ R P X cl, ∀ c ∈ step R P X cl, c ∈ cl ∨ c ≠ []) :
    ∀ (vs R P X : List ProductNode) cl,
      ∀ c ∈ bkLoop adj step vs R P X cl, c ∈ cl ∨ c ≠ [] := by
  intro vs
  induction vs with
  | nil =>
      intro R P X cl c hc
      exact Or.inl (by simpa [bkLoop] using hc)
  | cons v vs' ih =>
      intro R P X cl c hc
      simp only [bkLoop] at hc
      rcases ih _ _ _ _ c hc with h | h
      · exact hstep _ _ _ _ c h
      · exact Or.inr h

theorem bkRec_cliques (pg : ProductGraph) :
    ∀ (fuel : Nat) (R P X : List ProductNode) cl,
      ∀ c ∈ bkRec pg fuel R P X cl, c ∈ cl ∨ c ≠ [] := by
  intro fuel
  induction fuel with
  | zero =>
      intro R P X cl c hc
      exact Or.inl (by simpa [bkRec] using hc)
  | succ n ih =>
      intro R P X cl c hc
      rw [bkRec] at hc
      split at hc
      · exact Or.inl hc
      · split at hc
        · split at hc
          · rename_i hR
            rcases List.mem_append.1 hc with h | h
            · exact Or.inl h
            · right
              rw [List.mem_singleton] at h
              exact h ▸ hR
          · exact Or.inl hc
        · exact bkLoop_cliques (adjOf pg) _
            (fun R' P' X' cl' => ih R' P' X' cl') _ _ _ _ _ c hc

theorem find_maximal_cliques_prop (pg : ProductGraph)
    (hpg : pg.nodes ≠ []) :
    find_maximal_cliques_with_timeout pg 5000 ≠ []
    ∧ ∀ c ∈ find_maximal_cliques_with_timeout pg 5000, c ≠ [] := by
  unfold find_maximal_cliques_with_timeout
  by_cases hemp :
      (bkRec pg (pg.nodes.length + 1) [] pg.nodes [] []).isEmpty
  · rw [if_pos hemp]
    cases hn : pg.nodes with
    | nil => exact absurd hn hpg
    | cons n rest => exact ⟨by simp, by simp⟩
  · rw [if_neg hemp]
    constructor
    · intro h
      rw [h] at hemp
      exact hemp rfl
    · intro c hc
      rcases bkRec_cliques pg _ _ _ _ _ c hc with h | h
      · cases h
      · exact h

theorem add_node_num_nodes (g : Graph) (id : String) :
    g.get_num_nodes ≤ ((g.add_node id).2).get_num_nodes := by
  unfold Graph.add_node
  split
  · exact le_refl _
  · simp [Graph.get_num_nodes]

theorem add_node_empty_num_nodes (id : String) :
    (((⟨[]⟩ : Graph).add_node id).2).get_num_nodes = 1 := rfl

theorem add_edge_num_nodes (g : Graph) (a b : String) (w : Int) :
    ((g.add_edge a b w).2).get_num_nodes = g.get_num_nodes := by
  unfold Graph.add_edge
  cases hf : g.get_node a with
  | none => rfl
  | some nf =>
      cases ht : g.get_node b with
      | none => rfl
      | some nt =>
          dsimp only
          split
          · rfl
          · split
            · rfl
            · simp [Graph.updateNode, Graph.get_num_nodes]

theorem foldl_num_nodes_mono {α : Type} (f : Graph → α → Graph)
    (hf : ∀ g x, g.get_num_nodes ≤ (f g x).get_num_nodes) :
    ∀ (l : List α) (g : Graph),
      g.get_num_nodes ≤ (l.foldl f g).get_num_nodes := by
  intro l
  induction l with
  | nil => intro g; exact le_refl _
  | cons x rest ih =>
      intro g
      exact le_trans (hf g x) (ih (f g x))

theorem foldl_num_nodes_const {α : Type} (f : Graph → α → Graph)
    (hf : ∀ g x, (f g x).get_num_nodes = g.get_num_nodes) :
    ∀ (l : List α) (g : Graph),
      (l.foldl f g).get_num_nodes = g.get_num_nodes := by
  intro l
  induction l with
  | nil => intro g; rfl
  | cons x rest ih =>
      intro g
      rw [List.foldl_cons, ih (f g x), hf g x]

theorem create_subgraph_num_nodes (graphs : List Graph)
    (clique : List ProductNode) (g : Graph)
    (hne : clique ≠ [])
    (hcr : create_subgraph_from_clique clique graphs = some g) :
    1 ≤ g.get_num_nodes := by
  unfold create_subgraph_from_clique at hcr
  rw [if_neg (by simpa [List.isEmpty_iff] using hne)] at hcr
  rw [Option.some_inj] at hcr
  subst hcr
  have houter : ∀ (gg : Graph) (pn1 : ProductNode),
      (clique.foldl (fun gg2 pn2 =>
        if pn1 ≠ pn2 then
          if edgeInAllAux graphs pn1 pn2 then
            (gg2.add_edge (joinIds pn1) (joinIds pn2) 1).2
          else gg2
        else gg2) gg).get_num_nodes = gg.get_num_nodes := by
    intro gg pn1
    apply foldl_num_nodes_const
    intro g2 pn2
    split
    · split
      · exact add_edge_num_nodes _ _ _ _
      · rfl
    · rfl
  rw [foldl_num_nodes_const _ houter]
  cases clique with
  | nil => exact absurd rfl hne
  | cons c0 crest =>
      rw [List.foldl_cons]
      refine le_trans ?_ (foldl_num_nodes_mono _
        (fun g x => add_node_num_nodes g (joinIds x)) crest _)
      rw [add_node_empty_num_nodes]

theorem foldl_max_bounds (l : List (List ProductNode)) :
    ∀ a : Nat, a ≤ l.foldl (fun m c => max m c.length) a
      ∧ ∀ c ∈ l, c.length ≤ l.foldl (fun m c => max m c.length) a := by
  induction l with
  | nil => intro a; exact ⟨le_refl _, by simp⟩
  | cons c0 rest ih =>
      intro a
      rw [List.foldl_cons]
      rcases ih (max a c0.length) with ⟨h1, h2⟩
      refine ⟨le_trans (Nat.le_max_left _ _) h1, ?_⟩
      intro c hc
      rcases List.mem_cons.1 hc with rfl | hc'
      · exact le_trans (Nat.le_max_right _ _) h1
      · exact h2 c hc'

theorem foldl_max_attained (l : List (List ProductNode)) :
    ∀ a : Nat,
      l.foldl (fun m c => max m c.length) a = a
      ∨ ∃ c ∈ l, l.foldl (fun m c => max m c.length) a = c.length := by
  induction l with
  | nil => intro a; exact Or.inl rfl
  | cons c0 rest ih =>
      intro a
      rw [List.foldl_cons]
      rcases ih (max a c0.length) with h | ⟨c, hc, h⟩
      · rcases Nat.le_total a c0.length with hle | hle
        · right
          exact ⟨c0, List.mem_cons_self _ _, by rw [h, Nat.max_eq_right hle]⟩
        · left
          rw [h, Nat.max_eq_left hle]
      · exact Or.inr ⟨c, List.mem_cons_of_mem _ hc, h⟩

theorem convert_cliques_nonempty (graphs : List Graph)
    (cliques : List (List ProductNode))
    (hne : cliques ≠ []) (hcl : ∀ c ∈ cliques, c ≠ []) :
    ∃ g ∈ convert_cliques_to_subgraphs cliques graphs,
      1 ≤ g.get_num_nodes := by
  unfold convert_cliques_to_subgraphs
  rw [if_neg (by simpa [List.isEmpty_iff] using hne)]
  have hatt := foldl_max_attained cliques 0
  rcases hatt with h0 | ⟨c, hc, hlen⟩
  · exfalso
    cases cliques with
    | nil => exact hne rfl
    | cons c0 rest =>
        have hb := (foldl_max_bounds (c0 :: rest) 0).2 c0
          (List.mem_cons_self _ _)
        rw [h0] at hb
        have : c0 = [] := List.eq_nil_of_length_eq_zero (Nat.le_zero.1 hb)
        exact hcl c0 (List.mem_cons_self _ _) this
  · have hcne : c ≠ [] := hcl c hc
    obtain ⟨g, hg⟩ : ∃ g, create_subgraph_from_clique c graphs = some g := by
      unfold create_subgraph_from_clique
      rw [if_neg (by simpa [List.isEmpty_iff] using hcne)]
      exact ⟨_, rfl⟩
    refine ⟨g, ?_, create_subgraph_num_nodes graphs c g hcne hg⟩
    apply List.mem_filterMap.2
    exact ⟨c, hc, by rw [if_pos hlen.symm]; exact hg⟩

theorem productTuples_ne_nil (idss : List (List String))
    (h : ∀ ids ∈ idss, ids ≠ []) : productTuples idss ≠ [] := by
  have hlen : 0 < (productTuples idss).length := by
    rw [productTuples_length]
    apply List.prod_pos
    intro a ha
    rcases List.mem_map.1 ha with ⟨ids, hids, rfl⟩
    exact List.length_pos.2 (h ids hids)
  intro hnil
  rw [hnil] at hlen
  cases hlen

/-- C3 (amended): for every non-empty list of input graphs in which each
graph has at least one node and whose product graph stays within the
1000-node gate, `BronKerboschSerial::find` returns success with at least
one result graph that has at least one node (the clique recursion either
records only non-empty cliques or the one-node degenerate fallback
fires).  Beyond the gate, the `find_simple_mcis` fallback may return zero
result graphs, as the counterexample shows. -/
theorem find_nonempty_inputs (graphs : List Graph) (tag : Option String)
    (hne : graphs ≠ [])
    (hnodes : ∀ g ∈ graphs, g.get_num_nodes ≠ 0)
    (hgate : (build_product_graph graphs).nodes.length ≤ 1000) :
    ∃ results, find graphs tag = Except.ok results
      ∧ ∃ g ∈ results, 1 ≤ g.get_num_nodes := by
  have hany : (graphs.any (fun g => g.get_num_nodes == 0)) = false := by
    rw [List.any_eq_false]
    intro g hg
    simpa using hnodes g hg
  have hisEmpty : graphs.isEmpty = false := by
    cases graphs with
    | nil => exact absurd rfl hne
    | cons g gs => rfl
  have hbuild : (build_product_graph graphs).nodes
      = setInsertList []
          (productTuples (graphs.map (fun g => g.nodes.map (fun n => n.id)))) := by
    simp only [build_product_graph, hisEmpty, Bool.false_eq_true, if_false]
  have hpgne : (build_product_graph graphs).nodes ≠ [] := by
    rw [hbuild]
    have htup : productTuples
        (graphs.map (fun g => g.nodes.map (fun n => n.id))) ≠ [] := by
      apply productTuples_ne_nil
      intro ids hids
      rcases List.mem_map.1 hids with ⟨g, hg, rfl⟩
      have hg0 := hnodes g hg
      simp only [Graph.get_num_nodes] at hg0
      intro hnil
      rw [List.map_eq_nil_iff] at hnil
      rw [hnil] at hg0
      exact hg0 rfl
    exact setInsertList_nil_ne _ htup
  have hfmc := find_maximal_cliques_prop (build_product_graph graphs) hpgne
  obtain ⟨g, hgmem, hgnum⟩ := convert_cliques_nonempty graphs
    (find_maximal_cliques_with_timeout (build_product_graph graphs) 5000)
    hfmc.1 hfmc.2
  refine ⟨convert_cliques_to_subgraphs
    (find_maximal_cliques_with_timeout (build_product_graph graphs) 5000)
    graphs, ?_, g, hgmem, hgnum⟩
  simp only [find, hany, Bool.false_eq_true, if_false]
  rw [if_neg (by omega)]

/-- A one-node untagged graph. -/
def gSingleA : Graph := ⟨[⟨"A", "", 0, 0, [], []⟩]⟩

/-- Witness for C3 (amended): the guarantee instantiated at the concrete
one-graph input `[gSingleA]`, whose product graph has one node. -/
theorem find_nonempty_inputs_witness :
    ∃ results, find [gSingleA] none = Except.ok results
      ∧ ∃ g ∈ results, 1 ≤ g.get_num_nodes :=
  find_nonempty_inputs [gSingleA] none (by decide) (by decide) (by decide)

end BronKerboschSerial

theorem mem_setInsert {α : Type} [DecidableEq α] {x a : α} {l : List α} :
    a ∈ setInsert x l ↔ a = x ∨ a ∈ l := by
  unfold setInsert
  split
  · rename_i hx
    constructor
    · exact Or.inr
    · rintro (rfl | h)
      · exact hx
      · exact h
  · simp [List.mem_append, or_comm]

namespace KPT

/-- `KPT::Hyperedge`: the `node_ids` tuple. -/
abbrev Hyperedge := List String

/-- `KPT::EdgeSet = std::set<Hyperedge>`, modelled as its (duplicate-free)
iteration sequence. -/
abbrev EdgeSet := List Hyperedge

/-- `KPT::WeightMap = std::map<Hyperedge, double>` whose `operator[]`
defaults to 0, i.e. a total map; `double` weights are modelled exactly as
rationals. -/
abbrev WeightMap := Hyperedge → ℚ

/-- The `1e-9` epsilon of the zero-value pruning step. -/
def epsQ : ℚ := 1 / 1000000000

/-- Fuel bound for the BFS worklist of `is_reachable`: each id is enqueued
at most once (the visited set guards every push), so the loop runs at most
`1 + Σ children` iterations; this fuel therefore makes the model exact on
well-formed graphs. -/
def bfsFuel (g : Graph) : Nat :=
  2 + g.nodes.foldl (fun a n => a + n.children.length) 0

/-- The inner `for (edge : u->get_children())` loop of `KPT::is_reachable`
(kpt.cpp lines 208-215): returns `none` when the target id was found
(`return true` in C++), otherwise the updated queue and visited set. -/
def scanChildren (endId : String) :
    List (String × Int) → List String → List String →
      Option (List String × List String)
  | [], q, vis => some (q, vis)
  | (v, _) :: rest, q, vis =>
      if v = endId then none
      else if v ∈ vis then scanChildren endId rest q vis
      else scanChildren endId rest (q ++ [v]) (vis ++ [v])

/-- The `while (!q.empty())` loop of `KPT::is_reachable` (kpt.cpp lines
201-217); a node id without a backing node is skipped (`continue`). -/
def bfsLoop (g : Graph) (endId : String) :
    Nat → List String → List String → Bool
  | 0, _, _ => false
  | _ + 1, [], _ => false
  | fuel + 1, u :: rest, vis =>
      match g.get_node u with
      | none => bfsLoop g endId fuel rest vis
      | some un =>
          match scanChildren endId un.children rest vis with
          | none => true
          | some (q', vis') => bfsLoop g endId fuel q' vis'

/-- `KPT::is_reachable` (kpt.cpp lines 192-219): BFS over the `children`
maps; `start = end` is immediately true. -/
def is_reachable (g : Graph) (start_node_id end_node_id : String) : Bool :=
  if start_node_id = end_node_id then true
  else bfsLoop g end_node_id (bfsFuel g) [start_node_id] [start_node_id]

/-- The index loop of `KPT::are_conflicting` (kpt.cpp lines 183-188),
walking the graph list and the two tuples in lockstep; `true` as soon as
one side is reachable from the other in some coordinate.  The arm for
tuples shorter than the graph list is unreachable for real hyperedges
(the C++ indexing would be out of bounds) and yields false. -/
def conflictAux : List Graph → List String → List String → Bool
  | [], _, _ => false
  | g :: gs, a :: as', b :: bs =>
      (is_reachable g a b || is_reachable g b a) || conflictAux gs as' bs
  | _ :: _, _, _ => false

/-- `KPT::are_conflicting(p1, p2, graphs)` (kpt.cpp lines 180-190):
conflicting iff equal or reachability holds either way in some
coordinate. -/
def are_conflicting (p1 p2 : Hyperedge) (graphs : List Graph) : Bool :=
  if p1 = p2 then true else conflictAux graphs p1 p2

theorem are_conflicting_self (p : Hyperedge) (graphs : List Graph) :
    are_conflicting p p graphs = true := by
  unfold are_conflicting
  rw [if_pos rfl]

theorem conflictAux_symm (graphs : List Graph) :
    ∀ p q : List String, conflictAux graphs p q = conflictAux graphs q p := by
  induction graphs with
  | nil => intro p q; rfl
  | cons g gs ih =>
      intro p q
      cases p with
      | nil =>
          cases q with
          | nil => rfl
          | cons qh qt => rfl
      | cons ph pt =>
          cases q with
          | nil => rfl
          | cons qh qt =>
              simp only [conflictAux]
              rw [ih pt qt, Bool.or_comm (is_reachable g ph qh)]

theorem are_conflicting_symm (p q : Hyperedge) (graphs : List Graph) :
    are_conflicting p q graphs = are_conflicting q p graphs := by
  unfold are_conflicting
  by_cases hpq : p = q
  · simp [hpq]
  · rw [if_neg hpq, if_neg (fun h => hpq h.symm), conflictAux_symm]

/-- `total_weight` of `kPCM_Match` step 1 (kpt.cpp lines 94-95). -/
def kptTotal (F : EdgeSet) (w : WeightMap) : ℚ :=
  F.foldl (fun a e => a + w e) 0

/-- The `conflict_sum` of `kPCM_Match` step 4 (kpt.cpp lines 121-127),
with the fractional values `x[q] = w[q] / total` inlined. -/
def conflictSum (graphs : List Graph) (F : EdgeSet) (w : WeightMap)
    (total : ℚ) (e : Hyperedge) : ℚ :=
  F.foldl (fun a q => if are_conflicting e q graphs then a + w q / total
    else a) 0

/-- The low-conflict selection of `kPCM_Match` step 4 (kpt.cpp lines
114-143): the first `e ∈ F` whose conflict sum is at most
`alpha = 2 * graphs.size()`, else (fallback, "should not happen") the
first element of `F`. -/
def kptSelect (graphs : List Graph) (F : EdgeSet) (w : WeightMap)
    (total : ℚ) : Hyperedge :=
  match F.find? (fun e =>
      decide (conflictSum graphs F w total e ≤ 2 * (graphs.length : ℚ))) with
  | some e => e
  | none => F.headD []

/-- The local-ratio weight update of `kPCM_Match` step 5 (kpt.cpp lines
145-159): `w_new = w - ŵ` where `ŵ f = min(w f, w sel)` on edges
conflicting with the selected edge and 0 elsewhere.  The C++ code
computes `w_hat`/`w_new` only on the members of `F`; the recursion reads
weights only on members of `F`, so the total-function update is
observationally identical. -/
def kptWNew (graphs : List Graph) (w : WeightMap) (sel : Hyperedge) :
    WeightMap :=
  fun f => w f -
    (if are_conflicting sel f graphs then min (w f) (w sel) else 0)

/-- `KPT::kPCM_Match` (kpt.cpp lines 85-178) with the recursion depth made
explicit as fuel (`none` = fuel exhausted; the C++ recursion always
terminates within the bound proved below): base case on empty `F`; empty
total weight; zero-value pruning with recursion on the strictly smaller
set; low-conflict selection, local-ratio recursion, and greedy
augmentation of the returned matching when the selected edge conflicts
with none of its members. -/
def kPCM_MatchFuel (graphs : List Graph) :
    Nat → EdgeSet → WeightMap → Option EdgeSet
  | 0, _, _ => none
  | fuel + 1, F, w =>
      if F.isEmpty then some []
      else if kptTotal F w = 0 then some []
      else if (F.filter (fun e =>
          decide (w e / kptTotal F w > epsQ))).length < F.length then
        kPCM_MatchFuel graphs fuel
          (F.filter (fun e => decide (w e / kptTotal F w > epsQ))) w
      else
        match kPCM_MatchFuel graphs fuel F
            (kptWNew graphs w (kptSelect graphs F w (kptTotal F w))) with
        | none => none
        | some M' =>
            if M'.any (fun m =>
                are_conflicting (kptSelect graphs F w (kptTotal F w)) m
                  graphs) then
              some M'
            else some (setInsert (kptSelect graphs F w (kptTotal F w)) M')

/-- C4: every matching returned by `kPCM_Match` is conflict-free: any two
distinct members `p, q` satisfy `are_conflicting(p, q) = false` — in
particular no two members are equal, and no two share a coordinate whose
entries are mutually reachable in that coordinate's graph. -/
theorem kPCM_Match_independent (graphs : List Graph) :
    ∀ (fuel : Nat) (F : EdgeSet) (w : WeightMap) (M : EdgeSet),
      kPCM_MatchFuel graphs fuel F w = some M →
      ∀ p ∈ M, ∀ q ∈ M, p ≠ q → are_conflicting p q graphs = false := by
  intro fuel
  induction fuel with
  | zero =>
      intro F w M h
      simp [kPCM_MatchFuel] at h
  | succ n ih =>
      intro F w M h
      rw [kPCM_MatchFuel] at h
      split at h
      · cases h
        intro p hp
        cases hp
      · split at h
        · cases h
          intro p hp
          cases hp
        · split at h
          · exact ih _ _ _ h
          · split at h
            · cases h
            · rename_i M' hM'
              split at h
              · cases h
                exact ih _ _ _ hM'
              · rename_i hnoconf
                cases h
                have hanyf : M'.any (fun m =>
                    are_conflicting (kptSelect graphs F w (kptTotal F w)) m
                      graphs) = false := by
                  cases hx : M'.any (fun m =>
                      are_conflicting (kptSelect graphs F w (kptTotal F w)) m
                        graphs)
                  · rfl
                  · exact absurd hx hnoconf
                rw [List.any_eq_false] at hanyf
                have hM'prop := ih _ _ _ hM'
                intro p hp q hq hpq
                rcases mem_setInsert.1 hp with rfl | hp'
                · rcases mem_setInsert.1 hq with rfl | hq'
                  · exact absurd rfl hpq
                  · have := hanyf q hq'
                    simpa using this
                · rcases mem_setInsert.1 hq with rfl | hq'
                  · rw [are_conflicting_symm]
                    have := hanyf p hp'
                    simpa using this
                  · exact hM'prop p hp' q hq' hpq

/-- Two isolated nodes `A`, `B` in one graph (no reachability, so the two
singleton hyperedges do not conflict). -/
def gTwoFree : Graph :=
  ⟨[⟨"A", "", 0, 0, [], []⟩, ⟨"B", "", 0, 0, [], []⟩]⟩

/-- Witness for C4: on the edgeless two-node graph, `kPCM_Match` over the
hyperedges `(A)`, `(B)` with unit weights returns the two-element matching
`{(B), (A)}`, and the theorem instantiates to the conflict-freedom of its
two distinct members in both orders. -/
theorem kPCM_Match_independent_witness :
    are_conflicting ["B"] ["A"] [gTwoFree] = false
    ∧ are_conflicting ["A"] ["B"] [gTwoFree] = false :=
  ⟨kPCM_Match_independent [gTwoFree] 8 [["A"], ["B"]] (fun _ => 1)
      [["B"], ["A"]] (by with_unfolding_all decide) ["B"] (by simp) ["A"]
      (by simp) (by decide),
   kPCM_Match_independent [gTwoFree] 8 [["A"], ["B"]] (fun _ => 1)
      [["B"], ["A"]] (by with_unfolding_all decide) ["A"] (by simp) ["B"]
      (by simp) (by decide)⟩

end KPT

namespace KPT

/-- Progress flag of the termination measure: 1 when `F` is non-empty with
non-zero total weight and no edge would be pruned (every fractional value
exceeds epsilon), 0 otherwise.  A local-ratio step always zeroes the
selected edge's weight, driving this flag to 0 so that the following call
prunes and strictly shrinks `F`. -/
def kptFlag (_graphs : List Graph) (F : EdgeSet) (w : WeightMap) : Nat :=
  if F ≠ [] ∧ kptTotal F w ≠ 0 ∧ ∀ e ∈ F, w e / kptTotal F w > epsQ then 1
  else 0

theorem kptFlag_le_one (graphs : List Graph) (F : EdgeSet) (w : WeightMap) :
    kptFlag graphs F w ≤ 1 := by
  unfold kptFlag
  split <;> omega

theorem filter_length_all {α : Type} (p : α → Bool) :
    ∀ l : List α, ¬ ((l.filter p).length < l.length) →
      ∀ x ∈ l, p x = true := by
  intro l
  induction l with
  | nil => intro _ x hx; cases hx
  | cons a rest ih =>
      intro h x hx
      by_cases hp : p a = true
      · rcases List.mem_cons.1 hx with rfl | hx'
        · exact hp
        · refine ih ?_ x hx'
          intro hlt
          apply h
          simp only [List.filter_cons, hp, if_true, List.length_cons]
          omega
      · exfalso
        apply h
        have hp' : p a = false := by
          cases hpa : p a
          · rfl
          · exact absurd hpa hp
        have hle := List.length_filter_le p rest
        simp only [List.filter_cons, hp', Bool.false_eq_true, if_false,
          List.length_cons]
        omega

theorem kptSelect_mem (graphs : List Graph) (F : EdgeSet) (w : WeightMap)
    (total : ℚ) (hF : F ≠ []) : kptSelect graphs F w total ∈ F := by
  unfold kptSelect
  cases hf : F.find? (fun e =>
      decide (conflictSum graphs F w total e ≤ 2 * (graphs.length : ℚ))) with
  | some e => exact List.mem_of_find?_eq_some hf
  | none =>
      cases F with
      | nil => exact absurd rfl hF
      | cons e es => simp

theorem kptWNew_selected_zero (graphs : List Graph) (w : WeightMap)
    (sel : Hyperedge) : kptWNew graphs w sel sel = 0 := by
  unfold kptWNew
  rw [if_pos (are_conflicting_self sel graphs), min_self]
  ring

theorem epsQ_pos : (0 : ℚ) < epsQ := by norm_num [epsQ]

theorem kPCM_MatchFuel_suff (graphs : List Graph) :
    ∀ (fuel : Nat) (F : EdgeSet) (w : WeightMap),
      2 * F.length + kptFlag graphs F w + 1 ≤ fuel →
      (kPCM_MatchFuel graphs fuel F w).isSome = true := by
  intro fuel
  induction fuel with
  | zero => intro F w h; omega
  | succ n ih =>
      intro F w h
      rw [kPCM_MatchFuel]
      split
      · rfl
      · rename_i hFe
        split
        · rfl
        · rename_i htot
          split
          · rename_i hlt
            apply ih
            have hf1 := kptFlag_le_one graphs
              (F.filter (fun e => decide (w e / kptTotal F w > epsQ))) w
            omega
          · rename_i hnlt
            have hFne : F ≠ [] := by
              intro hnil
              rw [hnil] at hFe
              exact hFe rfl
            have hall := filter_length_all
              (fun e => decide (w e / kptTotal F w > epsQ)) F hnlt
            have hflag : kptFlag graphs F w = 1 := by
              unfold kptFlag
              rw [if_pos ⟨hFne, htot, fun e he => of_decide_eq_true (hall e he)⟩]
            have hselmem := kptSelect_mem graphs F w (kptTotal F w) hFne
            have hrec : (kPCM_MatchFuel graphs n F
                (kptWNew graphs w (kptSelect graphs F w (kptTotal F w)))).isSome
                  = true := by
              apply ih
              have hflag0 : kptFlag graphs F
                  (kptWNew graphs w (kptSelect graphs F w (kptTotal F w))) = 0 := by
                unfold kptFlag
                rw [if_neg]
                rintro ⟨-, -, hall2⟩
                have hz := hall2 _ hselmem
                rw [kptWNew_selected_zero, zero_div] at hz
                exact absurd hz (not_lt.2 (le_of_lt epsQ_pos))
              omega
            obtain ⟨M', hM'⟩ := Option.isSome_iff_exists.1 hrec
            rw [hM']
            split
            · rename_i heq
              exact Option.noConfusion heq
            · rename_i M'' heq
              split <;> rfl

/-- C7: for every hyperedge set `F`, weight map `w` and graph list,
`kPCM_Match` terminates, its recursive reduction bounded by the size of
`F`: recursion depth `2·|F| + 2` always suffices, because each
local-ratio step zeroes the selected edge's weight, so the subsequent
pruning step strictly shrinks `F`. -/
theorem kPCM_Match_terminates (graphs : List Graph) (F : EdgeSet)
    (w : WeightMap) :
    (kPCM_MatchFuel graphs (2 * F.length + 2) F w).isSome = true := by
  apply kPCM_MatchFuel_suff
  have := kptFlag_le_one graphs F w
  omega

end KPT

/-- `AlgorithmType` from `include/mcis/mcis_algorithm.h` (line 27). -/
inductive AlgorithmType where
  | BRON_KERBOSCH_SERIAL
  | KPT
deriving DecidableEq, Repr, Fintype

/-- `static_cast<int>(type)`: the enumerator's underlying value. -/
def AlgorithmType.toIndex : AlgorithmType → Nat
  | .BRON_KERBOSCH_SERIAL => 0
  | .KPT => 1

namespace MCISAlgorithm

/-- The engine table built by the `MCISAlgorithm` constructor
(mcis_algorithm.cpp lines 19-21): only `BronKerboschSerial` is installed;
no `KPT` engine is ever pushed. -/
def algorithms :
    List (List Graph → Option String → Except mcis.AlgorithmError (List Graph)) :=
  [BronKerboschSerial.find]

/-- `MCISAlgorithm::run` (mcis_algorithm.cpp lines 29-45): when a tag is
given, each input graph is first projected through
`get_subgraph_with_tag`; the selected engine is then fetched by
`algorithms[static_cast<int>(type)]` with no bounds check.  The `none`
result models that out-of-bounds vector access (undefined behavior). -/
def run (graphs : List Graph) (type : AlgorithmType)
    (tag : Option String) :
    Option (Except mcis.AlgorithmError (List Graph)) :=
  match tag with
  | some t =>
      match algorithms.get? type.toIndex with
      | some f => some (f (graphs.map (fun g => g.get_subgraph_with_tag t)) tag)
      | none => none
  | none =>
      match algorithms.get? type.toIndex with
      | some f => some (f graphs tag)
      | none => none

/-- C2 (code bug, evaluated at the failing inputs): for every input list
and tag, `MCISAlgorithm::run` with `AlgorithmType::KPT` — an enum value
not backed by an installed engine — performs the out-of-bounds access
`algorithms[1]` on the one-element engine table (undefined behavior,
modelled as `none`); it does not return `INVALID_ALGORITHM`, which no
code path ever produces. -/
theorem run_kpt_out_of_bounds :
    ∀ (graphs : List Graph) (tag : Option String),
      run graphs AlgorithmType.KPT tag = none := by
  intro graphs tag
  cases tag <;> rfl

end MCISAlgorithm
